import Mathlib

/-!
Verification of the decimal arithmetic engine of the anchor-kit repository.

The repository contains two variants of the engine:
* a hand-rolled scaled-integer implementation (`DecimalUtils` built on
  `bigint`, file `utils/decimal` of the tested tree), modelled below in
  namespace `ScaledDec`;
* a `big.js`-backed implementation (`src/utils/decimal.ts`), modelled in
  namespace `BigDec`.

Strings are modelled as Lean `String`/`List Char`; JavaScript `bigint`
becomes `Int`; JavaScript `number` powers `10 ** k` are exact for every
exponent used by the code (at most 14), so they are modelled as `10 ^ k`.
-/

namespace DecStr

/-- JavaScript ASCII whitespace as used by the inputs of this module
(`String.prototype.trim` also strips further Unicode space characters,
which no caller of this engine produces). -/
def isWsCh (c : Char) : Bool :=
  c = ' ' || c = '\t' || c = '\n' || c = '\r'

/-- Models `String.prototype.trim`. -/
def jsTrim (cs : List Char) : List Char :=
  ((cs.dropWhile isWsCh).reverse.dropWhile isWsCh).reverse

/-- Numeric value of a big-endian string of decimal digit characters,
`"0073"` yields `73`.  Models the digit loop of `BigInt(...)` on an
all-digit string. -/
def digitsToNat (cs : List Char) : Nat :=
  cs.foldl (fun a c => 10 * a + (c.toNat - 48)) 0

/-- Models JavaScript `BigInt(string)` on the strings this module feeds it:
an optional `-` sign followed by decimal digits (a `SyntaxError` becomes
`none`; `BigInt("")` is `0`).  The further forms `BigInt` accepts
(surrounding whitespace, `+`, `0x…`) are never produced by this module. -/
def jsBigIntOfString (cs : List Char) : Option Int :=
  match cs with
  | [] => some 0
  | '-' :: rest =>
      if rest ≠ [] ∧ rest.all Char.isDigit then some (-(digitsToNat rest : Int)) else none
  | _ => if cs.all Char.isDigit then some (digitsToNat cs : Int) else none

/-- Little-endian decimal digits of `n`, with explicit fuel so that the
definition is structural (the fuel is always chosen `≥ n`). -/
def natDigitsRev (fuel n : Nat) : List Char :=
  match fuel, n with
  | 0, _ => []
  | _ + 1, 0 => []
  | fuel + 1, n + 1 => Nat.digitChar ((n + 1) % 10) :: natDigitsRev fuel ((n + 1) / 10)

/-- Big-endian decimal digit characters of a natural number; `0` prints as
`"0"`.  Models `BigInt.prototype.toString` on non-negative values. -/
def natToDigits (n : Nat) : List Char :=
  if n = 0 then ['0'] else (natDigitsRev n n).reverse

/-- Models `BigInt.prototype.toString` (sign plus digits). -/
def intToString (i : Int) : List Char :=
  if i < 0 then '-' :: natToDigits i.natAbs else natToDigits i.natAbs

/-- Models `String.prototype.padStart(n, '0')`. -/
def padLeft (n : Nat) (cs : List Char) : List Char :=
  List.replicate (n - cs.length) '0' ++ cs

/-- Models `String.prototype.replace(/0+$/, '')`: strip the maximal run of
trailing `'0'` characters. -/
def stripTrailingZeros (cs : List Char) : List Char :=
  (cs.reverse.dropWhile (· = '0')).reverse

/-- Index of the first `'.'`, models `String.prototype.indexOf('.')`. -/
def indexOfDot : List Char → Option Nat
  | [] => none
  | c :: cs => if c = '.' then some 0 else (indexOfDot cs).map (· + 1)

/-- Models `String.prototype.replace('.', '')`: remove the first dot. -/
def removeFirstDot : List Char → List Char
  | [] => []
  | c :: cs => if c = '.' then cs else c :: removeFirstDot cs

end DecStr

namespace ScaledDec

open DecStr

/-- The `DecimalValue` interface of the scaled-integer variant:
`value / 10 ^ scale` is the represented number. -/
structure DecimalValue where
  value : Int
  scale : Nat
deriving Repr, DecidableEq

/-- The exceptions thrown by the scaled-integer variant:
`Error('Invalid decimal format: …')` from `fromString`,
`Error('Division by zero')` from `divide`, and the `SyntaxError` raised by
`BigInt(...)` on a malformed numeric string. -/
inductive DecError where
  | invalidDecimalFormat : String → DecError
  | divisionByZero : DecError
  | invalidBigInt : DecError
deriving Repr, DecidableEq

/-- Translation of `toDecimalValue` (string case).  Faithful to the source,
including its slice bound `str.length - dotIndex - 1 + scale` on the
dot-free string. -/
def toDecimalValue (s : String) : Except DecError DecimalValue :=
  let cs := s.data
  match indexOfDot cs with
  | none =>
      match jsBigIntOfString cs with
      | none => .error .invalidBigInt
      | some v => .ok ⟨v, 0⟩
  | some dotIndex =>
      let fracLen := cs.length - dotIndex - 1
      let scale := min fracLen 7
      let sliced := (removeFirstDot cs).take (fracLen + scale)
      let padded := List.replicate (scale - sliced.length) '0' ++ sliced
      let valueStr := if padded = [] then ['0'] else padded
      match jsBigIntOfString valueStr with
      | none => .error .invalidBigInt
      | some v => .ok ⟨v, scale⟩

/-- Translation of `fromBigInt`.  JavaScript `bigint` `/` and `%` truncate
toward zero, which is `Int.tdiv` / `Int.tmod`. -/
def fromBigInt (value : Int) (scale : Nat) : String :=
  if scale = 0 then String.mk (intToString value)
  else
    let divisor : Int := 10 ^ scale
    let whole := Int.tdiv value divisor
    let fraction := Int.tmod value divisor
    let fractionStr := stripTrailingZeros (padLeft scale (intToString fraction))
    if fractionStr = [] then String.mk (intToString whole)
    else String.mk (intToString whole ++ '.' :: fractionStr)

/-- Translation of `add`. -/
def add (a b : String) : Except DecError String := do
  let decA ← toDecimalValue a
  let decB ← toDecimalValue b
  let maxScale := max decA.scale decB.scale
  let valueA := decA.value * 10 ^ (maxScale - decA.scale)
  let valueB := decB.value * 10 ^ (maxScale - decB.scale)
  pure (fromBigInt (valueA + valueB) maxScale)

/-- Translation of `subtract`. -/
def subtract (a b : String) : Except DecError String := do
  let decA ← toDecimalValue a
  let decB ← toDecimalValue b
  let maxScale := max decA.scale decB.scale
  let valueA := decA.value * 10 ^ (maxScale - decA.scale)
  let valueB := decB.value * 10 ^ (maxScale - decB.scale)
  pure (fromBigInt (valueA - valueB) maxScale)

/-- Translation of `multiply`. -/
def multiply (a b : String) : Except DecError String := do
  let decA ← toDecimalValue a
  let decB ← toDecimalValue b
  pure (fromBigInt (decA.value * decB.value) (decA.scale + decB.scale))

/-- Translation of `divide`: the dividend's magnitude is multiplied by
`10 ^ 7` and divided (`bigint` division truncates toward zero) by the
divisor's magnitude; neither operand's `scale` field is consulted. -/
def divide (a b : String) : Except DecError String := do
  let decA ← toDecimalValue a
  let decB ← toDecimalValue b
  if decB.value = 0 then Except.error .divisionByZero
  else
    let scale : Nat := 7
    let scaledA := decA.value * 10 ^ scale
    pure (fromBigInt (Int.tdiv scaledA decB.value) scale)

/-- Translation of `applyFee` (scaled-integer variant):
`divide(multiply(amount, feePercent), '100')`. -/
def applyFee (amount feePercent : String) : Except DecError String := do
  let m ← multiply amount feePercent
  divide m "100"

/-- Translation of the validation regex `/^-?\d*\.?\d+$/` of `fromString`:
an optional `-`, then (after the maximal leading digit run) either the end
of the string or a `'.'` followed by a non-empty digit run. -/
def decimalBodyTest (cs : List Char) : Bool :=
  let r := cs.dropWhile Char.isDigit
  if r = [] then decide (cs ≠ [])
  else if r.head? = some '.' then decide (r.tail ≠ []) && r.tail.all Char.isDigit
  else false

/-- Full regex test including the optional leading `-`. -/
def decimalFormatTest (cs : List Char) : Bool :=
  if cs.head? = some '-' then decimalBodyTest cs.tail else decimalBodyTest cs

/-- Translation of `fromString`: trim, test the regex, return the trimmed
string unchanged. -/
def fromString (s : String) : Except DecError String :=
  let trimmed := jsTrim s.data
  if decimalFormatTest trimmed then .ok (String.mk trimmed)
  else .error (.invalidDecimalFormat s)

/-- Translation of `compare`. -/
def compare (a b : String) : Except DecError Int := do
  let decA ← toDecimalValue a
  let decB ← toDecimalValue b
  let maxScale := max decA.scale decB.scale
  let valueA := decA.value * 10 ^ (maxScale - decA.scale)
  let valueB := decB.value * 10 ^ (maxScale - decB.scale)
  pure (if valueA < valueB then -1 else if valueA > valueB then 1 else 0)

/-- Spec-side reading of the body of the validation pattern
`\d*\.?\d+`: a possibly empty digit run, then either directly a non-empty
digit run, or a `'.'` followed by a non-empty digit run. -/
def BodyGrammar (cs : List Char) : Prop :=
  ∃ w f : List Char,
    (∀ c ∈ w, c.isDigit = true) ∧ f ≠ [] ∧ (∀ c ∈ f, c.isDigit = true) ∧
      (cs = w ++ f ∨ cs = w ++ '.' :: f)

/-- Spec-side reading of the full validation pattern `-?\d*\.?\d+`:
`BodyGrammar`, optionally preceded by a single `'-'`. -/
def DecimalGrammar (cs : List Char) : Prop :=
  BodyGrammar cs ∨ ∃ t, cs = '-' :: t ∧ BodyGrammar t

end ScaledDec

namespace BigDec

open DecStr

/-- A `big.js` value, kept unnormalised: the represented number is
`num / 10 ^ scale`.  (`big.js` stores a normalised coefficient and an
exponent; only the represented value is observable through the operations
modelled here.) -/
structure BigNum where
  num : Int
  scale : Nat
deriving Repr, DecidableEq

/-- The rational value of a `BigNum`. -/
def bigVal (v : BigNum) : ℚ :=
  (v.num : ℚ) / 10 ^ v.scale

/-- Models the `Big(string)` constructor on plain decimal strings: an
optional `-`, then digits with an optional dot (`".5"` and `"5."` are both
accepted by `big.js`); anything else throws, modelled as `none`.
Exponent notation, which no claim exercises, is not modelled. -/
def bigFromString (s : String) : Option BigNum :=
  let neg : Bool := s.data.head? = some '-'
  let body := if neg then s.data.tail else s.data
  let w := body.takeWhile Char.isDigit
  let r := body.dropWhile Char.isDigit
  let sign : Nat → Int := fun n => if neg then -(n : Int) else (n : Int)
  if r = [] then
    if w = [] then none else some ⟨sign (digitsToNat w), 0⟩
  else if r.head? = some '.' then
    if (w ≠ [] ∨ r.tail ≠ []) ∧ r.tail.all Char.isDigit then
      some ⟨sign (digitsToNat (w ++ r.tail)), r.tail.length⟩
    else none
  else none

/-- `big.js` `plus`: exact addition after aligning the decimal scales. -/
def bigPlus (a b : BigNum) : BigNum :=
  let s := max a.scale b.scale
  ⟨a.num * 10 ^ (s - a.scale) + b.num * 10 ^ (s - b.scale), s⟩

/-- `big.js` `times`: exact multiplication, scales add. -/
def bigTimes (a b : BigNum) : BigNum :=
  ⟨a.num * b.num, a.scale + b.scale⟩

/-- `Big.DP`, the maximum number of decimal places of a division result
(library default, the repository never changes it). -/
def DP : Nat := 20

/-- Round half away from zero of the fraction `N / D`, for `D > 0`;
this is `big.js` rounding mode `1` (`ROUND_HALF_UP`), the library
default. -/
def rhu (N D : Int) : Int :=
  if 0 ≤ N then (2 * N + D) / (2 * D) else -((2 * (-N) + D) / (2 * D))

/-- Models `big.js` `div`: the exact quotient rounded to at most `Big.DP`
decimal places with rounding mode `Big.RM` (half away from zero); division
by zero throws, modelled as `none`. -/
def bigDiv (a b : BigNum) : Option BigNum :=
  if b.num = 0 then none
  else
    let N := a.num * 10 ^ b.scale * 10 ^ DP
    let D := b.num * 10 ^ a.scale
    some ⟨if 0 < D then rhu N D else rhu (-N) (-D), DP⟩

/-- Models `toFixed()` without argument: the exact value in normal
notation.  `big.js` prints the normalised coefficient, so the fractional
part carries no trailing zeros and a whole number prints without a dot;
the sign precedes the whole part. -/
def toFixedPlain (v : BigNum) : String :=
  let n := v.num.natAbs
  let whole := n / 10 ^ v.scale
  let frac := n % 10 ^ v.scale
  let fracStr := stripTrailingZeros (padLeft v.scale (natToDigits frac))
  let signChars : List Char := if v.num < 0 then ['-'] else []
  if fracStr = [] then String.mk (signChars ++ natToDigits whole)
  else String.mk (signChars ++ natToDigits whole ++ '.' :: fracStr)

/-- Models `toFixed(dp)` for `dp ≥ 1`: the value rounded to exactly `dp`
decimal places (mode half away from zero) and printed with exactly `dp`
fractional digits. -/
def toFixedDp (dp : Nat) (v : BigNum) : String :=
  let r := rhu (v.num * 10 ^ dp) (10 ^ v.scale)
  let n := r.natAbs
  let signChars : List Char := if r < 0 then ['-'] else []
  if dp = 0 then String.mk (signChars ++ natToDigits n)
  else
    String.mk
      (signChars ++ natToDigits (n / 10 ^ dp) ++ '.' :: padLeft dp (natToDigits (n % 10 ^ dp)))

/-- Translation of `DecimalUtils.divide` of the `big.js` variant:
`new Big(a).div(b).toFixed(precision)` (the source defaults `precision`
to `7`). -/
def divide (a b : String) (precision : Nat) : Option String := do
  let x ← bigFromString a
  let y ← bigFromString b
  let q ← bigDiv x y
  pure (toFixedDp precision q)

/-- Translation of `DecimalUtils.applyFee` of the `big.js` variant:
`new Big(amount).times(new Big(1).plus(new Big(feePercentage).div(100))).toFixed()`.
The numeric `feePercentage` argument is modelled by its decimal string
form. -/
def applyFee (amount feePercentage : String) : Option String := do
  let bigAmount ← bigFromString amount
  let f ← bigFromString feePercentage
  let bigFee ← bigDiv f ⟨100, 0⟩
  pure (toFixedPlain (bigTimes bigAmount (bigPlus ⟨1, 0⟩ bigFee)))

/-- The rational value denoted by a decimal string, through the `big.js`
parser. -/
def ratOfDecimalStr (s : String) : Option ℚ :=
  (bigFromString s).map bigVal

/-- A decimal string is canonical when, if it has a fractional part at
all, that part neither is empty (no bare trailing dot) nor ends in a
zero. -/
def isCanonicalStr (s : String) : Bool :=
  if '.' ∈ s.data then
    decide (s.data.getLast? ≠ some '0') && decide (s.data.getLast? ≠ some '.')
  else true

end BigDec

/-! ### Properties of the shared string utilities -/

namespace DecStr

theorem foldl_digits_shift (b : List Char) (a : Nat) :
    b.foldl (fun a c => 10 * a + (c.toNat - 48)) a
      = a * 10 ^ b.length + b.foldl (fun a c => 10 * a + (c.toNat - 48)) 0 := by
  induction b generalizing a with
  | nil => simp
  | cons c t ih =>
      simp only [List.foldl_cons, List.length_cons]
      rw [ih (10 * a + (c.toNat - 48)), ih (10 * 0 + (c.toNat - 48))]
      ring

theorem digitsToNat_append (a b : List Char) :
    digitsToNat (a ++ b) = digitsToNat a * 10 ^ b.length + digitsToNat b := by
  unfold digitsToNat
  rw [List.foldl_append, foldl_digits_shift]

theorem digitsToNat_replicate_zero (k : Nat) :
    digitsToNat (List.replicate k '0') = 0 := by
  induction k with
  | zero => rfl
  | succ n ih =>
      unfold digitsToNat at ih ⊢
      simpa [List.replicate_succ] using ih

theorem digitsToNat_padLeft (n : Nat) (cs : List Char) :
    digitsToNat (padLeft n cs) = digitsToNat cs := by
  unfold padLeft
  rw [digitsToNat_append, digitsToNat_replicate_zero]
  simp

theorem padLeft_length (n : Nat) (cs : List Char) (h : cs.length ≤ n) :
    (padLeft n cs).length = n := by
  unfold padLeft
  simp [Nat.sub_add_cancel h]

theorem digitChar_toNat {d : Nat} (h : d < 10) : (Nat.digitChar d).toNat - 48 = d := by
  interval_cases d <;> decide

theorem digitChar_isDigit {d : Nat} (h : d < 10) : (Nat.digitChar d).isDigit = true := by
  interval_cases d <;> decide

theorem digitsToNat_rev_map (ds : List Nat) (h : ∀ d ∈ ds, d < 10) :
    digitsToNat ((ds.map Nat.digitChar).reverse) = Nat.ofDigits 10 ds := by
  induction ds with
  | nil => rfl
  | cons d t ih =>
      have hd : d < 10 := h d (by simp)
      have ht : ∀ x ∈ t, x < 10 := fun x hx => h x (by simp [hx])
      simp only [List.map_cons, List.reverse_cons, Nat.ofDigits_cons]
      rw [digitsToNat_append, ih ht]
      simp only [List.length_cons, List.length_nil]
      have hone : digitsToNat [Nat.digitChar d] = d := by
        unfold digitsToNat
        simp [digitChar_toNat hd]
      rw [hone]
      ring

theorem natDigitsRev_eq (fuel : Nat) : ∀ n, n ≤ fuel →
    natDigitsRev fuel n = (Nat.digits 10 n).map Nat.digitChar := by
  induction fuel with
  | zero =>
      intro n hn
      interval_cases n
      simp [natDigitsRev]
  | succ fuel ih =>
      intro n hn
      match n with
      | 0 => simp [natDigitsRev]
      | m + 1 =>
          have hdiv : (m + 1) / 10 ≤ fuel := by
            have : (m + 1) / 10 < m + 1 := Nat.div_lt_self (Nat.succ_pos m) (by norm_num)
            omega
          rw [natDigitsRev, ih _ hdiv, Nat.digits_def' (by norm_num : (1:Nat) < 10) (Nat.succ_pos m)]
          rfl

theorem digitsToNat_natToDigits (n : Nat) : digitsToNat (natToDigits n) = n := by
  by_cases h : n = 0
  · subst h; rfl
  · unfold natToDigits
    rw [if_neg h, natDigitsRev_eq n n le_rfl,
      digitsToNat_rev_map _ (fun d hd => Nat.digits_lt_base (by norm_num) hd),
      Nat.ofDigits_digits]

theorem natToDigits_all_digit (n : Nat) : ∀ c ∈ natToDigits n, c.isDigit = true := by
  by_cases h : n = 0
  · subst h; intro c hc; simp [natToDigits] at hc; subst hc; decide
  · unfold natToDigits
    rw [if_neg h, natDigitsRev_eq n n le_rfl]
    intro c hc
    rw [List.mem_reverse, List.mem_map] at hc
    obtain ⟨d, hd, rfl⟩ := hc
    exact digitChar_isDigit (Nat.digits_lt_base (by norm_num) hd)

theorem natToDigits_ne_nil (n : Nat) : natToDigits n ≠ [] := by
  by_cases h : n = 0
  · subst h; simp [natToDigits]
  · unfold natToDigits
    rw [if_neg h, natDigitsRev_eq n n le_rfl]
    simpa using Nat.digits_ne_nil_iff_ne_zero.mpr h

theorem natToDigits_length_le {n s : Nat} (hn : n < 10 ^ s) (hs : 1 ≤ s) :
    (natToDigits n).length ≤ s := by
  by_cases h : n = 0
  · subst h; simpa [natToDigits] using hs
  · unfold natToDigits
    rw [if_neg h, natDigitsRev_eq n n le_rfl, List.length_reverse, List.length_map,
      Nat.digits_len 10 n (by norm_num) h]
    have := (Nat.lt_pow_iff_log_lt (by norm_num : (1:Nat) < 10) h).mp hn
    omega

theorem stripTrailingZeros_spec (cs : List Char) :
    ∃ k, cs = stripTrailingZeros cs ++ List.replicate k '0' ∧
      (stripTrailingZeros cs).getLast? ≠ some '0' := by
  refine ⟨(cs.reverse.takeWhile (· = '0')).length, ?_, ?_⟩
  · conv_lhs => rw [← cs.reverse_reverse,
      ← List.takeWhile_append_dropWhile (p := (· = '0')) (l := cs.reverse)]
    rw [List.reverse_append]
    unfold stripTrailingZeros
    congr 1
    have hall : ∀ b ∈ cs.reverse.takeWhile (· = '0'), b = '0' := by
      intro b hb
      simpa using List.mem_takeWhile_imp hb
    rw [show cs.reverse.takeWhile (· = '0')
          = List.replicate (cs.reverse.takeWhile (· = '0')).length '0' from
        List.eq_replicate_iff.mpr ⟨rfl, hall⟩,
      List.reverse_replicate, List.length_replicate]
  · unfold stripTrailingZeros
    rw [List.getLast?_reverse]
    have h := List.head?_dropWhile_not (· = '0') cs.reverse
    intro hc
    rw [hc] at h
    simp at h

theorem takeWhile_append_stop {p : Char → Bool} (w : List Char)
    (hw : ∀ c ∈ w, p c = true) (y : Char) (ys : List Char) (hy : p y = false) :
    (w ++ y :: ys).takeWhile p = w := by
  induction w with
  | nil => simp [List.takeWhile_cons, hy]
  | cons c t ih =>
      have hc : p c = true := hw c (by simp)
      have ht : ∀ x ∈ t, p x = true := fun x hx => hw x (by simp [hx])
      simp [List.takeWhile_cons, hc, ih ht]

theorem dropWhile_append_stop {p : Char → Bool} (w : List Char)
    (hw : ∀ c ∈ w, p c = true) (y : Char) (ys : List Char) (hy : p y = false) :
    (w ++ y :: ys).dropWhile p = y :: ys := by
  induction w with
  | nil => simp [List.dropWhile_cons, hy]
  | cons c t ih =>
      have hc : p c = true := hw c (by simp)
      have ht : ∀ x ∈ t, p x = true := fun x hx => hw x (by simp [hx])
      simp [List.dropWhile_cons, hc, ih ht]

theorem takeWhile_all {p : Char → Bool} (l : List Char) (h : ∀ c ∈ l, p c = true) :
    l.takeWhile p = l := by
  induction l with
  | nil => rfl
  | cons c t ih =>
      have hc : p c = true := h c (by simp)
      have ht : ∀ x ∈ t, p x = true := fun x hx => h x (by simp [hx])
      simp [List.takeWhile_cons, hc, ih ht]

theorem isDigit_ne_dash {c : Char} (h : c.isDigit = true) : c ≠ '-' := by
  intro he; subst he; simp at h

theorem isDigit_ne_dot {c : Char} (h : c.isDigit = true) : c ≠ '.' := by
  intro he; subst he; simp at h

end DecStr

/-! ### The validation regex against the declarative grammar -/

namespace ScaledDec

open DecStr

theorem bodyGrammar_ne_nil {cs : List Char} (h : BodyGrammar cs) : cs ≠ [] := by
  obtain ⟨w, f, hw, hf, hfd, hcase | hcase⟩ := h <;> subst hcase <;>
    simp [List.append_eq_nil, hf]

theorem bodyGrammar_not_dash {t : List Char} (h : BodyGrammar ('-' :: t)) : False := by
  obtain ⟨w, f, hw, hf, hfd, hcase | hcase⟩ := h
  · cases w with
    | nil =>
        simp only [List.nil_append] at hcase
        cases f with
        | nil => exact hf rfl
        | cons a b =>
            injection hcase with h1 h2
            rw [← h1] at hfd
            simpa using hfd '-' (by simp)
    | cons a b =>
        simp only [List.cons_append] at hcase
        injection hcase with h1 h2
        rw [← h1] at hw
        simpa using hw '-' (by simp)
  · cases w with
    | nil => simp at hcase
    | cons a b =>
        simp only [List.cons_append] at hcase
        injection hcase with h1 h2
        rw [← h1] at hw
        simpa using hw '-' (by simp)

theorem bodyTest_dropWhile_nil {cs : List Char} (h : cs.dropWhile Char.isDigit = []) :
    decimalBodyTest cs = decide (cs ≠ []) := by
  simp [decimalBodyTest, h]

theorem bodyTest_dropWhile_dot {cs t : List Char} (h : cs.dropWhile Char.isDigit = '.' :: t) :
    decimalBodyTest cs = (decide (t ≠ []) && t.all Char.isDigit) := by
  simp [decimalBodyTest, h]

theorem bodyTest_dropWhile_other {cs t : List Char} {c : Char}
    (h : cs.dropWhile Char.isDigit = c :: t) (hc : c ≠ '.') :
    decimalBodyTest cs = false := by
  simp [decimalBodyTest, h, hc]

theorem decimalBodyTest_iff (cs : List Char) :
    decimalBodyTest cs = true ↔ BodyGrammar cs := by
  rcases hr : cs.dropWhile Char.isDigit with _ | ⟨c, t⟩
  · rw [bodyTest_dropWhile_nil hr]
    simp only [decide_eq_true_eq]
    constructor
    · intro hne
      exact ⟨[], cs, by simp, hne, List.dropWhile_eq_nil_iff.mp hr, Or.inl (by simp)⟩
    · exact fun h => bodyGrammar_ne_nil h
  · by_cases hc : c = '.'
    · subst hc
      rw [bodyTest_dropWhile_dot hr]
      simp only [Bool.and_eq_true, decide_eq_true_eq]
      constructor
      · rintro ⟨ht, hall⟩
        refine ⟨cs.takeWhile Char.isDigit, t, ?_, ht, List.all_eq_true.mp hall, Or.inr ?_⟩
        · exact fun x hx => List.mem_takeWhile_imp hx
        · conv_lhs => rw [← List.takeWhile_append_dropWhile (p := Char.isDigit) (l := cs)]
          rw [hr]
      · rintro ⟨w, f, hw, hf, hfd, hcase | hcase⟩
        · subst hcase
          have hnil : (w ++ f).dropWhile Char.isDigit = [] :=
            List.dropWhile_eq_nil_iff.mpr fun x hx =>
              (List.mem_append.mp hx).elim (hw x) (hfd x)
          rw [hnil] at hr
          exact absurd hr (by simp)
        · subst hcase
          have hdw : (w ++ '.' :: f).dropWhile Char.isDigit = '.' :: f :=
            dropWhile_append_stop w hw '.' f (by decide)
          rw [hdw] at hr
          injection hr with h1 h2
          subst h2
          exact ⟨hf, List.all_eq_true.mpr hfd⟩
    · rw [bodyTest_dropWhile_other hr hc]
      simp only [Bool.false_eq_true, false_iff]
      rintro ⟨w, f, hw, hf, hfd, hcase | hcase⟩
      · subst hcase
        have hnil : (w ++ f).dropWhile Char.isDigit = [] :=
          List.dropWhile_eq_nil_iff.mpr fun x hx =>
            (List.mem_append.mp hx).elim (hw x) (hfd x)
        rw [hnil] at hr
        exact absurd hr (by simp)
      · subst hcase
        have hdw : (w ++ '.' :: f).dropWhile Char.isDigit = '.' :: f :=
          dropWhile_append_stop w hw '.' f (by decide)
        rw [hdw] at hr
        injection hr with h1 h2
        exact hc h1.symm

theorem decimalFormatTest_iff (cs : List Char) :
    decimalFormatTest cs = true ↔ DecimalGrammar cs := by
  unfold decimalFormatTest DecimalGrammar
  by_cases h : cs.head? = some '-'
  · obtain ⟨t, rfl⟩ : ∃ t, cs = '-' :: t := by
      cases cs with
      | nil => simp at h
      | cons a b =>
          refine ⟨b, ?_⟩
          have ha : a = '-' := by simpa using h
          rw [ha]
    rw [if_pos h]
    simp only [List.tail_cons]
    rw [decimalBodyTest_iff]
    constructor
    · intro hb; exact Or.inr ⟨t, rfl, hb⟩
    · rintro (hb | ⟨t', ht', hb⟩)
      · exact absurd hb (fun hb => bodyGrammar_not_dash hb)
      · injection ht' with h1 h2
        rw [h2]
        exact hb
  · rw [if_neg h, decimalBodyTest_iff]
    constructor
    · exact Or.inl
    · rintro (hb | ⟨t, ht, hb⟩)
      · exact hb
      · subst ht; simp at h

end ScaledDec

/-! ### Exactness of the `big.js` model -/

namespace BigDec

open DecStr

theorem getLast?_mem {l : List Char} {a : Char} (h : l.getLast? = some a) : a ∈ l := by
  have h' : a ∈ l.getLast? := Option.mem_def.mpr h
  obtain ⟨hne, he⟩ := List.mem_getLast?_eq_getLast h'
  rw [he]
  exact List.getLast_mem hne

theorem div_pow_align {n : Int} {sa s : Nat} (h : sa ≤ s) :
    ((n : ℚ) * 10 ^ (s - sa)) / 10 ^ s = (n : ℚ) / 10 ^ sa := by
  rw [div_eq_div_iff (by positivity) (by positivity), mul_assoc, ← pow_add,
    Nat.sub_add_cancel h]

theorem bigVal_plus (a b : BigNum) : bigVal (bigPlus a b) = bigVal a + bigVal b := by
  unfold bigPlus bigVal
  push_cast
  rw [add_div, div_pow_align (le_max_left a.scale b.scale),
    div_pow_align (le_max_right a.scale b.scale)]

theorem bigVal_times (a b : BigNum) : bigVal (bigTimes a b) = bigVal a * bigVal b := by
  unfold bigTimes bigVal
  push_cast
  rw [pow_add, div_mul_div_comm]

theorem bigVal_one : bigVal ⟨1, 0⟩ = 1 := by
  unfold bigVal
  norm_num

theorem rhu_exact {c D : Int} (hD : 0 < D) : rhu (c * D) D = c := by
  unfold rhu
  by_cases hc : 0 ≤ c * D
  · rw [if_pos hc, show 2 * (c * D) + D = D * (2 * c + 1) from by ring,
      show 2 * D = D * 2 from by ring, Int.mul_ediv_mul_of_pos _ _ hD]
    omega
  · rw [if_neg hc, show 2 * -(c * D) + D = D * (2 * -c + 1) from by ring,
      show 2 * D = D * 2 from by ring, Int.mul_ediv_mul_of_pos _ _ hD]
    omega

theorem bigDiv_hundred (f : BigNum) (hs : f.scale ≤ 18) :
    bigDiv f ⟨100, 0⟩ = some ⟨f.num * 10 ^ (18 - f.scale), 20⟩ := by
  have hD : (0 : Int) < 100 * 10 ^ f.scale := by positivity
  have hN : f.num * 10 ^ (0 : Nat) * 10 ^ DP
      = (f.num * 10 ^ (18 - f.scale)) * (100 * 10 ^ f.scale) := by
    simp only [pow_zero, mul_one, DP]
    rw [mul_assoc]
    congr 1
    rw [show (100 : Int) = 10 ^ (2 : Nat) from by norm_num, ← pow_add, ← pow_add]
    congr 1
    omega
  simp only [bigDiv]
  rw [if_neg (by norm_num), if_pos hD, hN, rhu_exact hD]
  rfl

theorem bigVal_div_hundred (f : BigNum) (hs : f.scale ≤ 18) :
    bigVal ⟨f.num * 10 ^ (18 - f.scale), 20⟩ = bigVal f / 100 := by
  unfold bigVal
  push_cast
  rw [div_div, div_eq_div_iff (by positivity) (by positivity)]
  have hpow : (10 : ℚ) ^ (18 - f.scale) * 10 ^ f.scale = 10 ^ (18 : Nat) := by
    rw [← pow_add, Nat.sub_add_cancel hs]
  calc (f.num : ℚ) * 10 ^ (18 - f.scale) * (10 ^ f.scale * 100)
      = (f.num : ℚ) * (10 ^ (18 - f.scale) * 10 ^ f.scale) * 100 := by ring
    _ = (f.num : ℚ) * 10 ^ (18 : Nat) * 100 := by rw [hpow]
    _ = (f.num : ℚ) * 10 ^ (20 : Nat) := by
        rw [show (20 : Nat) = 18 + 2 from rfl, pow_add]
        ring_nf

theorem bigFromString_int (neg : Prop) [Decidable neg] (w : List Char) (hw : w ≠ [])
    (hdg : ∀ c ∈ w, c.isDigit = true) :
    bigFromString (String.mk ((if neg then ['-'] else []) ++ w))
      = some ⟨if neg then -(digitsToNat w : Int) else (digitsToNat w : Int), 0⟩ := by
  obtain ⟨c0, w', rfl⟩ : ∃ c0 w', w = c0 :: w' := by
    cases w with
    | nil => exact absurd rfl hw
    | cons a b => exact ⟨a, b, rfl⟩
  have hc0 : c0.isDigit = true := hdg c0 (by simp)
  have htk : (c0 :: w').takeWhile Char.isDigit = c0 :: w' := takeWhile_all _ hdg
  have hdr : (c0 :: w').dropWhile Char.isDigit = [] := List.dropWhile_eq_nil_iff.mpr hdg
  by_cases hneg : neg
  · simp only [if_pos hneg, List.cons_append, List.nil_append]
    simp [bigFromString, htk, hdr, hneg]
  · simp only [if_neg hneg, List.nil_append]
    have hnd : c0 ≠ '-' := isDigit_ne_dash hc0
    simp [bigFromString, htk, hdr, hnd, hneg]

theorem bigFromString_frac (neg : Prop) [Decidable neg] (w f : List Char) (hw : w ≠ [])
    (hdgw : ∀ c ∈ w, c.isDigit = true) (_hf : f ≠ []) (hdgf : ∀ c ∈ f, c.isDigit = true) :
    bigFromString (String.mk ((if neg then ['-'] else []) ++ w ++ '.' :: f))
      = some ⟨if neg then -(digitsToNat (w ++ f) : Int) else (digitsToNat (w ++ f) : Int),
          f.length⟩ := by
  obtain ⟨c0, w', rfl⟩ : ∃ c0 w', w = c0 :: w' := by
    cases w with
    | nil => exact absurd rfl hw
    | cons a b => exact ⟨a, b, rfl⟩
  have hc0 : c0.isDigit = true := hdgw c0 (by simp)
  have htk : List.takeWhile Char.isDigit (c0 :: (w' ++ '.' :: f)) = c0 :: w' := by
    simpa using takeWhile_append_stop (c0 :: w') hdgw '.' f (by decide)
  have hdr : List.dropWhile Char.isDigit (c0 :: (w' ++ '.' :: f)) = '.' :: f := by
    simpa using dropWhile_append_stop (c0 :: w') hdgw '.' f (by decide)
  by_cases hneg : neg
  · simp only [if_pos hneg, List.cons_append, List.nil_append]
    simp [bigFromString, htk, hdr, hneg, List.all_eq_true.mpr hdgf]
  · simp only [if_neg hneg, List.nil_append]
    have hnd : c0 ≠ '-' := isDigit_ne_dash hc0
    simp [bigFromString, htk, hdr, hnd, hneg, List.all_eq_true.mpr hdgf]

end BigDec

namespace BigDec

open DecStr

theorem data_mk (l : List Char) : (String.mk l).data = l := rfl

theorem padded_all_digit (s frac : Nat) :
    ∀ c ∈ padLeft s (natToDigits frac), c.isDigit = true := by
  intro c hc
  unfold padLeft at hc
  rcases List.mem_append.mp hc with h | h
  · rw [List.eq_of_mem_replicate h]; decide
  · exact natToDigits_all_digit frac c h

theorem getLast?_cons_ne_nil {a : Char} {xs : List Char} (h : xs ≠ []) :
    (a :: xs).getLast? = xs.getLast? := by
  cases xs with
  | nil => exact absurd rfl h
  | cons b t => exact List.getLast?_cons_cons

theorem printParse (neg : Prop) [Decidable neg] (n s : Nat) :
    ∃ w : BigNum,
      bigFromString
          (if stripTrailingZeros (padLeft s (natToDigits (n % 10 ^ s))) = []
            then String.mk ((if neg then ['-'] else []) ++ natToDigits (n / 10 ^ s))
            else
              String.mk ((if neg then ['-'] else []) ++ natToDigits (n / 10 ^ s) ++
                '.' :: stripTrailingZeros (padLeft s (natToDigits (n % 10 ^ s))))) = some w ∧
        bigVal w = (if neg then -(n : ℚ) else (n : ℚ)) / 10 ^ s ∧
        isCanonicalStr
          (if stripTrailingZeros (padLeft s (natToDigits (n % 10 ^ s))) = []
            then String.mk ((if neg then ['-'] else []) ++ natToDigits (n / 10 ^ s))
            else
              String.mk ((if neg then ['-'] else []) ++ natToDigits (n / 10 ^ s) ++
                '.' :: stripTrailingZeros (padLeft s (natToDigits (n % 10 ^ s))))) = true := by
  have hP : (0 : Nat) < 10 ^ s := by positivity
  have hfrac_lt : n % 10 ^ s < 10 ^ s := Nat.mod_lt _ hP
  have hdm : 10 ^ s * (n / 10 ^ s) + n % 10 ^ s = n := Nat.div_add_mod n (10 ^ s)
  have hpadval : digitsToNat (padLeft s (natToDigits (n % 10 ^ s))) = n % 10 ^ s := by
    rw [digitsToNat_padLeft, digitsToNat_natToDigits]
  obtain ⟨k, hsplit, hlast⟩ := stripTrailingZeros_spec (padLeft s (natToDigits (n % 10 ^ s)))
  by_cases hempty : stripTrailingZeros (padLeft s (natToDigits (n % 10 ^ s))) = []
  · simp only [if_pos hempty]
    have hfrac0 : n % 10 ^ s = 0 := by
      rw [hempty, List.nil_append] at hsplit
      rw [hsplit, digitsToNat_replicate_zero] at hpadval
      omega
    refine ⟨_, bigFromString_int neg _ (natToDigits_ne_nil _) (natToDigits_all_digit _),
      ?_, ?_⟩
    · rw [digitsToNat_natToDigits]
      unfold bigVal
      have hq : ((n : ℚ)) = 10 ^ s * ((n / 10 ^ s : Nat) : ℚ) := by
        exact_mod_cast (by omega : n = 10 ^ s * (n / 10 ^ s))
      by_cases hneg : neg
      · simp only [if_pos hneg, Int.cast_neg, Int.cast_natCast]
        rw [pow_zero, div_one, eq_div_iff (by positivity : ((10 : ℚ) ^ s) ≠ 0), hq]
        ring
      · simp only [if_neg hneg, Int.cast_natCast]
        rw [pow_zero, div_one, eq_div_iff (by positivity : ((10 : ℚ) ^ s) ≠ 0), hq]
        ring
    · have hnodot : ¬ ('.' ∈ ((if neg then ['-'] else []) ++ natToDigits (n / 10 ^ s))) := by
        intro hmem
        rcases List.mem_append.mp hmem with h | h
        · by_cases hneg : neg <;> simp [hneg] at h
        · exact isDigit_ne_dot (natToDigits_all_digit _ '.' h) rfl
      simp only [isCanonicalStr, data_mk]
      rw [if_neg hnodot]
  · simp only [if_neg hempty]
    have hfd : ∀ c ∈ stripTrailingZeros (padLeft s (natToDigits (n % 10 ^ s))),
        c.isDigit = true := by
      intro c hc
      exact padded_all_digit s (n % 10 ^ s) c (by rw [hsplit]; exact List.mem_append_left _ hc)
    have hs1 : 1 ≤ s := by
      rcases Nat.eq_zero_or_pos s with h0 | h1
      · exfalso
        apply hempty
        rw [h0]
        rw [show n % 10 ^ 0 = 0 from by omega]
        rfl
      · exact h1
    have hlen : (padLeft s (natToDigits (n % 10 ^ s))).length = s :=
      padLeft_length _ _ (natToDigits_length_le hfrac_lt hs1)
    have hk : (stripTrailingZeros (padLeft s (natToDigits (n % 10 ^ s)))).length + k = s := by
      rw [hsplit] at hlen
      simpa [List.length_append, List.length_replicate] using hlen
    have hFk : digitsToNat (stripTrailingZeros (padLeft s (natToDigits (n % 10 ^ s)))) * 10 ^ k
        = n % 10 ^ s := by
      rw [hsplit, digitsToNat_append, digitsToNat_replicate_zero, List.length_replicate]
        at hpadval
      omega
    refine ⟨_, bigFromString_frac neg _ _ (natToDigits_ne_nil _) (natToDigits_all_digit _)
      hempty hfd, ?_, ?_⟩
    · rw [digitsToNat_append, digitsToNat_natToDigits]
      unfold bigVal
      have hsq : (10 : ℚ) ^ s
          = 10 ^ (stripTrailingZeros (padLeft s (natToDigits (n % 10 ^ s)))).length
            * 10 ^ k := by
        rw [← pow_add, hk]
      have hnq : ((n : ℚ)) = 10 ^ s * ((n / 10 ^ s : Nat) : ℚ)
          + (digitsToNat (stripTrailingZeros (padLeft s (natToDigits (n % 10 ^ s)))) : ℚ)
            * 10 ^ k := by
        exact_mod_cast (by omega :
          n = 10 ^ s * (n / 10 ^ s)
            + digitsToNat (stripTrailingZeros (padLeft s (natToDigits (n % 10 ^ s)))) * 10 ^ k)
      by_cases hneg : neg
      · simp only [if_pos hneg, Int.cast_neg, Int.cast_add, Int.cast_mul, Int.cast_pow,
          Int.cast_ofNat, Int.cast_natCast, Nat.cast_add, Nat.cast_mul, Nat.cast_pow,
          Nat.cast_ofNat]
        rw [div_eq_div_iff (by positivity) (by positivity), hnq, hsq]
        ring
      · simp only [if_neg hneg, Int.cast_add, Int.cast_mul, Int.cast_pow,
          Int.cast_ofNat, Int.cast_natCast, Nat.cast_add, Nat.cast_mul, Nat.cast_pow,
          Nat.cast_ofNat]
        rw [div_eq_div_iff (by positivity) (by positivity), hnq, hsq]
        ring
    · obtain ⟨c, hc⟩ : ∃ c,
          (stripTrailingZeros (padLeft s (natToDigits (n % 10 ^ s)))).getLast? = some c := by
        cases hX : (stripTrailingZeros (padLeft s (natToDigits (n % 10 ^ s)))).getLast? with
        | none => exact absurd (List.getLast?_eq_none_iff.mp hX) hempty
        | some c => exact ⟨c, rfl⟩
      have hcd : c.isDigit = true := hfd c (getLast?_mem hc)
      have hglast :
          (((if neg then ['-'] else []) ++ natToDigits (n / 10 ^ s)) ++
              '.' :: stripTrailingZeros (padLeft s (natToDigits (n % 10 ^ s)))).getLast?
            = some c := by
        rw [List.getLast?_append, getLast?_cons_ne_nil hempty, hc, Option.or_some]
      have hdot : '.' ∈ (((if neg then ['-'] else []) ++ natToDigits (n / 10 ^ s)) ++
          '.' :: stripTrailingZeros (padLeft s (natToDigits (n % 10 ^ s)))) :=
        List.mem_append.mpr (Or.inr (by simp))
      simp only [isCanonicalStr, data_mk, List.append_assoc] at hglast hdot ⊢
      rw [if_pos hdot, hglast]
      have hc0 : c ≠ '0' := by
        intro he
        rw [he] at hc
        exact hlast hc
      have hcdot : c ≠ '.' := isDigit_ne_dot hcd
      simp [hc0, hcdot]

end BigDec

namespace BigDec

open DecStr

theorem toFixedPlain_parse (v : BigNum) :
    ∃ w : BigNum, bigFromString (toFixedPlain v) = some w ∧ bigVal w = bigVal v ∧
      isCanonicalStr (toFixedPlain v) = true := by
  have hstr : toFixedPlain v
      = (if stripTrailingZeros (padLeft v.scale (natToDigits (v.num.natAbs % 10 ^ v.scale))) = []
          then String.mk ((if v.num < 0 then ['-'] else []) ++
            natToDigits (v.num.natAbs / 10 ^ v.scale))
          else String.mk ((if v.num < 0 then ['-'] else []) ++
            natToDigits (v.num.natAbs / 10 ^ v.scale) ++
              '.' :: stripTrailingZeros (padLeft v.scale
                (natToDigits (v.num.natAbs % 10 ^ v.scale))))) := rfl
  obtain ⟨w, h1, h2, h3⟩ := printParse (v.num < 0) v.num.natAbs v.scale
  refine ⟨w, ?_, ?_, ?_⟩
  · rw [hstr]; exact h1
  · rw [h2]
    unfold bigVal
    by_cases hneg : v.num < 0
    · simp only [if_pos hneg]
      have hv : ((v.num.natAbs : ℚ)) = -((v.num : ℚ)) := by
        rw [Int.cast_natAbs, abs_of_neg hneg, Int.cast_neg]
      rw [hv]
      ring
    · simp only [if_neg hneg]
      push_neg at hneg
      have hv : ((v.num.natAbs : ℚ)) = ((v.num : ℚ)) := by
        rw [Int.cast_natAbs, abs_of_nonneg hneg]
      rw [hv]
  · rw [hstr]; exact h3

end BigDec

/-! ### The claims -/

/-- C1: claimed — parse caps the scale at 7 and truncates, and the magnitude
is the digit string with the dot removed, so `"12.5"` parses to magnitude 125
and `"0.123456789"` to magnitude 1234567.  The code's slice bound
`str.length - dotIndex - 1 + scale` instead drops trailing digits whenever
the part before the dot is longer than the part after it, and fails to drop
the digits beyond the 7th fractional position: `"12.5"` parses to magnitude
12 (the value 1.2) and `"0.123456789"` to magnitude 123456789 (the value
12.3456789). -/
theorem C1_toDecimalValue_slice_bug :
    ScaledDec.toDecimalValue "12.5" = Except.ok ⟨12, 1⟩ ∧
    ScaledDec.toDecimalValue "0.123456789" = Except.ok ⟨123456789, 7⟩ ∧
    (⟨12, 1⟩ : ScaledDec.DecimalValue) ≠ ⟨125, 1⟩ ∧
    (⟨123456789, 7⟩ : ScaledDec.DecimalValue) ≠ ⟨1234567, 7⟩ :=
  ⟨rfl, rfl, by decide, by decide⟩

/-- C2: claimed — divide returns the exact quotient truncated at the target
precision, folding the divisor's scale into the power-of-ten multiplier, so
`divide("1","0.5")` is `"2"` and `divide("10","3")` is `"3.3333333"`.  The
scaled-integer variant ignores both operands' scales (`divide "1" "0.5"`
yields `"0.2"`), and the `big.js` variant prints with trailing zeros and
rounds half-up instead of truncating (`"2.0000000"`, and
`divide("2","3")` is `"0.6666667"` rather than the truncated
`"0.6666666"`); only the all-integer case `divide("10","3")` behaves as
claimed. -/
theorem C2_divide_drops_scales :
    ScaledDec.divide "1" "0.5" = Except.ok "0.2" ∧
    BigDec.divide "1" "0.5" 7 = some "2.0000000" ∧
    BigDec.divide "2" "3" 7 = some "0.6666667" ∧
    ScaledDec.divide "10" "3" = Except.ok "3.3333333" :=
  ⟨rfl, rfl, rfl, rfl⟩

/-- C3 counterexample: the claim says `fromString` fails on `".5"` because a
leading digit is required, but the validation regex `-?\d*\.?\d+` accepts a
bare leading dot, so `fromString ".5"` succeeds and returns `".5"`. -/
theorem C3_counterexample_leading_dot_accepted :
    ScaledDec.fromString ".5" = Except.ok ".5" := rfl

/-- C3 (amended): `fromString` fails with `InvalidDecimalFormat` exactly
when the trimmed input does not match: optional `-`, a possibly empty digit
run, then an optional `.` followed by at least one digit — it fails on
`""`, `"abc"`, `"1.2.3"`, `"."`, `"-"` and `"5."`, but accepts `".5"` (no
leading digit is required before the point). -/
theorem C3_fromString_error_charact :
    (∀ s : String,
      ScaledDec.fromString s = Except.error (ScaledDec.DecError.invalidDecimalFormat s)
        ↔ ¬ ScaledDec.DecimalGrammar (DecStr.jsTrim s.data)) ∧
    ScaledDec.fromString "" = Except.error (ScaledDec.DecError.invalidDecimalFormat "") ∧
    ScaledDec.fromString "abc" = Except.error (ScaledDec.DecError.invalidDecimalFormat "abc") ∧
    ScaledDec.fromString "1.2.3"
      = Except.error (ScaledDec.DecError.invalidDecimalFormat "1.2.3") ∧
    ScaledDec.fromString "." = Except.error (ScaledDec.DecError.invalidDecimalFormat ".") ∧
    ScaledDec.fromString "-" = Except.error (ScaledDec.DecError.invalidDecimalFormat "-") ∧
    ScaledDec.fromString "5." = Except.error (ScaledDec.DecError.invalidDecimalFormat "5.") := by
  refine ⟨?_, rfl, rfl, rfl, rfl, rfl, rfl⟩
  intro s
  by_cases h : ScaledDec.decimalFormatTest (DecStr.jsTrim s.data) = true
  · have hg := (ScaledDec.decimalFormatTest_iff _).mp h
    have hok : ScaledDec.fromString s = Except.ok (String.mk (DecStr.jsTrim s.data)) := by
      simp only [ScaledDec.fromString]
      rw [if_pos h]
    rw [hok]
    constructor
    · intro he; exact Except.noConfusion he
    · intro hng; exact absurd hg hng
  · have hng : ¬ ScaledDec.DecimalGrammar (DecStr.jsTrim s.data) := fun hgram =>
      h ((ScaledDec.decimalFormatTest_iff _).mpr hgram)
    have herr : ScaledDec.fromString s
        = Except.error (ScaledDec.DecError.invalidDecimalFormat s) := by
      simp only [ScaledDec.fromString]
      rw [if_neg h]
    rw [herr]
    exact ⟨fun _ => hng, fun _ => rfl⟩

/-- C3 witness: the characterisation applied at the concrete input `"5."`. -/
theorem C3_fromString_error_charact_witness :
    ScaledDec.fromString "5." = Except.error (ScaledDec.DecError.invalidDecimalFormat "5.") :=
  C3_fromString_error_charact.2.2.2.2.2.2

/-- C4: claimed — canonical formatting carries the sign on the whole part
and renders fractional digits without their own sign, e.g. magnitude -5 at
scale 1 formats as `"-0.5"`.  The code computes the fractional digits from
the (negative) remainder of `bigint` truncated division and glues its sign
into the string: `fromBigInt (-5) 1` is `"0.-5"`; the repository's own test
expects `subtract('3.14','10')` to be `'-6.86'` but the code produces
`"-6.-86"`, a string the module's own validation rejects. -/
theorem C4_fromBigInt_negative_fraction_malformed :
    ScaledDec.fromBigInt (-5) 1 = "0.-5" ∧
    ScaledDec.subtract "3.14" "10" = Except.ok "-6.-86" ∧
    ScaledDec.fromString "0.-5" = Except.error (ScaledDec.DecError.invalidDecimalFormat "0.-5") :=
  ⟨rfl, rfl, rfl⟩

/-- C5: claimed — `subtract(add(a,b),b)` returns the canonical form of `a`
for all valid decimal strings.  At `a = "12.5"`, `b = "0"` the parse bug
makes `add "12.5" "0"` return `"1.2"`, and subtracting `"0"` again leaves
`"1.2"`, not `"12.5"`. -/
theorem C5_roundtrip_fails :
    (ScaledDec.add "12.5" "0" >>= fun r => ScaledDec.subtract r "0") = Except.ok "1.2" ∧
    "1.2" ≠ "12.5" :=
  ⟨rfl, by decide⟩

/-- C6: claimed — strings denoting the same number after scale alignment
compare equal, e.g. `"12.5"` and `"12.50"`.  The parse bug turns `"12.5"`
into the value 1.2 while `"12.50"` parses correctly, so `compare` returns
-1 on the claim's own example pair; the `"5.5"`/`"5.50"` pair, whose
fractional parts are at least as long as their whole parts, still works. -/
theorem C6_compare_unequal_on_equal_values :
    ScaledDec.compare "12.5" "12.50" = Except.ok (-1) ∧
    ScaledDec.compare "5.5" "5.50" = Except.ok 0 :=
  ⟨rfl, rfl⟩

/-- C7: claimed — `applyFee` returns amount × feePercent / 100 truncated at
7 fractional digits, e.g. `applyFee("0.5","3")` is `"0.015"`.  Because
`divide` drops the dividend's scale, the intermediate `"1.5"` is treated
as 15 and the result is `"0.15"`, ten times the claimed fee; the
`applyFee("100","1.5")` example happens to survive because there the
intermediate division operands have scale 0. -/
theorem C7_applyFee_wrong_scale :
    ScaledDec.applyFee "0.5" "3" = Except.ok "0.15" ∧
    "0.15" ≠ "0.015" ∧
    ScaledDec.applyFee "100" "1.5" = Except.ok "1.5" :=
  ⟨rfl, by decide, rfl⟩

/-- C9: claimed — `divide(a,b)` fails with `DivisionByZero` iff the §4.1
magnitude of `b` is zero, so `"00.1"` (magnitude 1 per the spec) must not
trigger it.  The code's parse of `"00.1"` keeps only the sliced digits
`"00"`, stores magnitude 0, and `divide "1" "00.1"` therefore throws
`DivisionByZero` even though the divisor denotes 0.1. -/
theorem C9_divide_spurious_division_by_zero :
    ScaledDec.divide "1" "00.1" = Except.error ScaledDec.DecError.divisionByZero ∧
    ScaledDec.toDecimalValue "00.1" = Except.ok ⟨0, 1⟩ :=
  ⟨rfl, rfl⟩

/-- C10: every input accepted by the validation regex is returned trimmed
but otherwise unchanged — no canonicalisation happens (`"5.50"` and
`"007"` come back verbatim even though their canonical forms are `"5.5"`
and `"7"`), and the arithmetic operations do not route through
`fromString`: `add "1." "1"` succeeds although `fromString "1."` rejects
that operand. -/
theorem C10_fromString_identity :
    (∀ s : String, ScaledDec.decimalFormatTest (DecStr.jsTrim s.data) = true →
      ScaledDec.fromString s = Except.ok (String.mk (DecStr.jsTrim s.data))) ∧
    ScaledDec.fromString "5.50" = Except.ok "5.50" ∧
    ScaledDec.fromString "007" = Except.ok "007" ∧
    ScaledDec.fromBigInt 550 2 = "5.5" ∧
    "5.50" ≠ "5.5" ∧
    ScaledDec.add "1." "1" = Except.ok "1" ∧
    ScaledDec.fromString "1." = Except.error (ScaledDec.DecError.invalidDecimalFormat "1.") := by
  refine ⟨?_, rfl, rfl, rfl, by decide, rfl, rfl⟩
  intro s h
  simp only [ScaledDec.fromString]
  rw [if_pos h]

/-- C10 witness: the identity applied at the concrete input `"  5.50  "`. -/
theorem C10_fromString_identity_witness :
    ScaledDec.fromString "  5.50  " = Except.ok "5.50" :=
  (C10_fromString_identity.1 "  5.50  " (by decide)).trans (congrArg Except.ok (by decide))

/-- C8 counterexample: the claim quantifies over all fee percentages, but a
fee with 22 fractional digits makes `big.js` round `fee/100` away at its
20-decimal-place division limit: the computed total for amount `"1"` is
exactly `"1"`, while the claimed formula value `1 × (1 + 10⁻²²/100)` is
not 1. -/
theorem C8_counterexample_high_scale_fee :
    BigDec.applyFee "1" "0.0000000000000000000001" = some "1" ∧
    BigDec.ratOfDecimalStr "1" = some 1 ∧
    BigDec.ratOfDecimalStr "0.0000000000000000000001" = some (1 / 10 ^ 22) ∧
    (1 : ℚ) ≠ 1 * (1 + (1 / 10 ^ 22) / 100) := by
  refine ⟨rfl, ?_, rfl, by norm_num⟩
  have h : BigDec.ratOfDecimalStr "1" = some (BigDec.bigVal ⟨1, 0⟩) := rfl
  rw [h, BigDec.bigVal_one]

/-- C8 (amended): for every valid decimal amount string and every fee
percent string with at most 18 fractional digits (so that `fee/100` stays
within `big.js`'s 20-decimal-place division precision), the fee-inclusive
`applyFee` of the `big.js` variant returns a canonical decimal string whose
value is exactly `amount × (1 + feePercent/100)`; in particular
`applyFee("100","1.5")` is `"101.5"`. -/
theorem C8_applyFee_total_exact (A F : String) (a f : BigDec.BigNum)
    (hA : BigDec.bigFromString A = some a) (hF : BigDec.bigFromString F = some f)
    (hs : f.scale ≤ 18) :
    ∃ r : String, BigDec.applyFee A F = some r ∧
      BigDec.ratOfDecimalStr r = some (BigDec.bigVal a * (1 + BigDec.bigVal f / 100)) ∧
      BigDec.isCanonicalStr r = true := by
  have hdiv : BigDec.bigDiv f ⟨100, 0⟩ = some ⟨f.num * 10 ^ (18 - f.scale), 20⟩ :=
    BigDec.bigDiv_hundred f hs
  obtain ⟨w, hw1, hw2, hw3⟩ := BigDec.toFixedPlain_parse
    (BigDec.bigTimes a (BigDec.bigPlus ⟨1, 0⟩ ⟨f.num * 10 ^ (18 - f.scale), 20⟩))
  refine ⟨_, ?_, ?_, hw3⟩
  · simp only [BigDec.applyFee, hA, hF, hdiv, Option.bind_eq_bind', Option.some_bind']
    rfl
  · unfold BigDec.ratOfDecimalStr
    rw [hw1]
    simp only [Option.map_some']
    rw [hw2, BigDec.bigVal_times, BigDec.bigVal_plus, BigDec.bigVal_one,
      BigDec.bigVal_div_hundred f hs]

/-- C8 witness: the amended statement applied at amount `"100"` and fee
`"1.5"`, together with the concrete scenario output `"101.5"`. -/
theorem C8_applyFee_total_exact_witness :
    (∃ r : String, BigDec.applyFee "100" "1.5" = some r ∧
      BigDec.ratOfDecimalStr r
        = some (BigDec.bigVal ⟨100, 0⟩ * (1 + BigDec.bigVal ⟨15, 1⟩ / 100)) ∧
      BigDec.isCanonicalStr r = true) ∧
    BigDec.applyFee "100" "1.5" = some "101.5" :=
  ⟨C8_applyFee_total_exact "100" "1.5" ⟨100, 0⟩ ⟨15, 1⟩ rfl rfl (by norm_num), rfl⟩
